import Mathlib

/-!
Verification of the geohash module of PyGeodesy (`pygeodesy/geohash.py`,
version 21.01.07) over an exact shallow embedding.

All coordinate arithmetic in the Python module is IEEE-754 double arithmetic,
but every value the module ever produces is an exact dyadic rational: the
bounding boxes start from (-90, -180, 90, 180) and are only ever updated by
exact halvings (`favg(a, b) = a + 0.5 * (b - a)`), whose operands stay
representable well within 53 bits of mantissa for the at most 60 bisection
steps of a 12-character geohash.  The embedding therefore uses `ℚ` and models
each float operation by the exact rational operation it computes.

Geohash strings are modelled as `List Char`.  Functions keep the names of the
Python functions and methods they translate (`resolution2`, `precision`,
`encode`, `bounds`, `decode2`, `distance1To`, `adjacent`); leading-underscore
helpers mirror the module-private tables (`_Neighbor`, `_Border`, `_Sizes`,
`_GeohashBase32`).
-/

/-- Error kinds raised by the geohash module.  Python raises a single
`GeohashError` class; the keyword payloads at the distinct raise sites
(invalid geohash string, invalid direction, character missing from a
neighbor table, invalid coordinate, precision or resolution) distinguish
the failure points, which this inductive mirrors. -/
inductive GhError where
  | invalidGeohash
  | invalidDirection
  | tableCorruption
  | invalidCoordinate
  | invalidPrecision
  | invalidResolution
  deriving DecidableEq

deriving instance DecidableEq for Except

/-- Maximum geohash length, `_MaxPrec = 12`. -/
def _MaxPrec : ℕ := 12

/-- The geohash base-32 alphabet `_GeohashBase32`. -/
def _GeohashBase32 : List Char := "0123456789bcdefghjkmnpqrstuvwxyz".data

/-- A geohash string is valid iff it is non-empty, at most `_MaxPrec`
characters long and every character is in the alphabet (`_2geostr`;
validity is checked on every `Geohash` construction). -/
def validGeohash (g : List Char) : Prop :=
  g ≠ [] ∧ g.length ≤ _MaxPrec ∧ ∀ c ∈ g, c ∈ _GeohashBase32

instance (g : List Char) : Decidable (validGeohash g) := by
  unfold validGeohash; infer_instance

/-- Lat-, longitudinal and radial cell size in meter per precision, `_Sizes`. -/
def _Sizes : List (ℚ × ℚ × ℚ) := [
  (20032e3, 20000e3, 11292815.096),
  (5003e3, 5000e3, 2821794.075),
  (650e3, 1225e3, 503442.397),
  (156e3, 156e3, 88013.575),
  (19500, 39100, 15578.683),
  (4890, 4890, 2758.887),
  (610, 1220, 486.710),
  (153, 153, 86.321),
  (19.1, 38.2, 15.239),
  (4.77, 4.77, 2.691),
  (0.596, 1.19, 0.475),
  (0.149, 0.149, 0.084),
  (0.0186, 0.0372, 0.015)]

/-- Radial size (third component, in meter) of `_Sizes[n]`; `distance1To`
returns `_Sizes[n][2]`.  The index is always at most 12 at the call sites, so
the default is never used. -/
def _sizesRad (n : ℕ) : ℚ := (_Sizes.getD n (0, 0, 0)).2.2

/-- Translation of `resolution2(prec1, prec2)`.  `ldexp(x, -k)` is the exact
value `x / 2 ^ k` here (no underflow occurs for the exponents involved), and
Python's floor division `p // 2` agrees with `Int` division for the
non-negative `p = 5 * max(0, min(prec, 12))`.  Note that the chained
assignment `res1 = res2 = ldexp(res1, ...)` in the `prec1` branch overwrites
the initial 180-degree latitude resolution with the longitude one. -/
def resolution2 (prec1 : ℤ) (prec2 : Option ℤ) : ℚ × ℚ :=
  let res1 : ℚ := 360
  let res2 : ℚ := 180
  let pr : ℚ × ℚ :=
    if prec1 ≠ 0 then
      let p : ℤ := 5 * max 0 (min prec1 (_MaxPrec : ℤ))
      let r : ℚ := res1 / 2 ^ (p - p / 2).toNat
      (r, r)
    else (res1, res2)
  match prec2 with
  | none => pr
  | some q =>
    if q ≠ 0 then
      let p : ℤ := 5 * max 0 (min q (_MaxPrec : ℤ))
      (pr.1, pr.2 / 2 ^ (p / 2).toNat)
    else pr

/-- Python tuple comparison `(a1, a2) <= (b1, b2)`: lexicographic. -/
def _pairLeB (a b : ℚ × ℚ) : Bool :=
  decide (a.1 < b.1 ∨ (a.1 = b.1 ∧ a.2 ≤ b.2))

/-- Translation of `precision(res1, res2)`: validate the resolutions
(`Degrees_` with lower bound 0), then scan `p` in `range(1, _MaxPrec)`,
i.e. 1..11, returning the first `p` whose `resolution2` is lexicographically
at most the targets, and `_MaxPrec` when none qualifies. -/
def precision (res1 : ℚ) (res2 : Option ℚ) : Except GhError ℕ :=
  if res1 < 0 then Except.error GhError.invalidResolution else
  match res2 with
  | none =>
    match (List.range' 1 11).find? (fun q : ℕ =>
        _pairLeB (resolution2 (q : ℤ) none) (res1, res1)) with
    | some q => Except.ok q
    | none => Except.ok _MaxPrec
  | some r2 =>
    if r2 < 0 then Except.error GhError.invalidResolution else
    match (List.range' 1 11).find? (fun q : ℕ =>
        _pairLeB (resolution2 (q : ℤ) (some (q : ℤ))) (res1, r2)) with
    | some q => Except.ok q
    | none => Except.ok _MaxPrec

/-- The first match of a scan over `range'`: `find?` returns `q` when `q` is
in range, satisfies the predicate, and everything in range before it does
not. -/
lemma _find?_range'_some (P : ℕ → Bool) (q : ℕ) :
    ∀ n s : ℕ, s ≤ q → q < s + n → P q = true →
      (∀ r, s ≤ r → r < q → P r = false) →
      (List.range' s n).find? P = some q := by
  intro n
  induction n with
  | zero => intro s h1 h2 _ _; omega
  | succ n ih =>
    intro s h1 h2 hq hlt
    rw [List.range'_succ]
    by_cases hsq : s = q
    · subst hsq; simp [List.find?_cons, hq]
    · have hPs : P s = false := hlt s le_rfl (by omega)
      simp only [List.find?_cons, hPs, cond_false]
      exact ih (s + 1) (by omega) (by omega) hq fun r hr hr2 => hlt r (by omega) hr2

/-- A scan over `range'` finds nothing when the predicate fails everywhere in
range. -/
lemma _find?_range'_none (P : ℕ → Bool) :
    ∀ n s : ℕ, (∀ r, s ≤ r → r < s + n → P r = false) →
      (List.range' s n).find? P = none := by
  intro n
  induction n with
  | zero => intro s _; rfl
  | succ n ih =>
    intro s hlt
    rw [List.range'_succ]
    have hPs : P s = false := hlt s le_rfl (by omega)
    simp only [List.find?_cons, hPs, cond_false]
    exact ih (s + 1) fun r hr hr2 => hlt r (by omega) (by omega)

/-- The value of `resolution2(p, p)` for p in 1..12, computed symbolically:
both branches are taken, the clamp is the identity, and the exponents are
`⌈5 p / 2⌉` and a further `⌊5 p / 2⌋`, together `5 p`. -/
lemma resolution2_pair_val (p : ℕ) (h1 : 1 ≤ p) (h2 : p ≤ 12) :
    resolution2 (p : ℤ) (some (p : ℤ)) =
      (360 / 2 ^ ((5 * p + 1) / 2), 360 / 2 ^ (5 * p)) := by
  have hp0 : ¬((p : ℤ) = 0) := by omega
  have hclamp : max (0 : ℤ) (min (p : ℤ) (_MaxPrec : ℕ)) = (p : ℤ) := by
    simp only [_MaxPrec]; omega
  simp only [resolution2, ne_eq, hp0, not_false_eq_true, if_true, hclamp]
  have e1 : (5 * (p : ℤ) - 5 * (p : ℤ) / 2).toNat = (5 * p + 1) / 2 := by omega
  have e2 : (5 * (p : ℤ) / 2).toNat = 5 * p / 2 := by omega
  rw [e1, e2, div_div, ← pow_add,
    (by omega : (5 * p + 1) / 2 + 5 * p / 2 = 5 * p)]

/-- C1 counterexample: the claim predicts that `resolution2(p, p)` returns the
latitude resolution `180 / 2 ^ ⌊5 p / 2⌋`; already at `p = 1` the code
returns `360 / 2 ^ 5 = 11.25` instead of `180 / 2 ^ 2 = 45`, because the
`prec1` branch overwrites the 180-degree base with the longitude
resolution before the `prec2` branch halves it further. -/
theorem resolution2_pair_claim_false :
    (resolution2 1 (some 1)).2 ≠ 180 / 2 ^ ((5 * 1) / 2 : ℕ) := by
  have h := resolution2_pair_val 1 le_rfl (by norm_num)
  rw [show ((1 : ℕ) : ℤ) = 1 by rfl] at h
  rw [h]
  norm_num

/-- C1 (amended): for every precision p in 1..12, `resolution2(p, p)` returns
the longitude resolution `360 / 2 ^ ⌈5 p / 2⌉` as claimed, but the latitude
resolution is that longitude resolution halved a further `⌊5 p / 2⌋` times,
i.e. `360 / 2 ^ (5 p)` (not `180 / 2 ^ ⌊5 p / 2⌋` as claimed). -/
theorem resolution2_pair_eq (p : ℕ) (h1 : 1 ≤ p) (h2 : p ≤ 12) :
    resolution2 (p : ℤ) (some (p : ℤ)) =
      (360 / 2 ^ ((5 * p + 1) / 2), 360 / 2 ^ (5 * p)) :=
  resolution2_pair_val p h1 h2

/-- Witness for C1's amended theorem at `p = 2`. -/
theorem resolution2_pair_eq_witness :
    resolution2 ((2 : ℕ) : ℤ) (some ((2 : ℕ) : ℤ)) =
      (360 / 2 ^ ((5 * 2 + 1) / 2), 360 / 2 ^ (5 * 2)) :=
  resolution2_pair_eq 2 (by norm_num) (by norm_num)

/-- The longitude resolution strictly shrinks as precision grows, so at a
coarser precision the `precision` loop predicate is false. -/
lemma _pairLeB_res_false (r p : ℕ) (h1 : 1 ≤ r) (hrp : r < p) (hp : p ≤ 12) :
    _pairLeB (resolution2 (r : ℤ) (some (r : ℤ)))
      (360 / 2 ^ ((5 * p + 1) / 2), 360 / 2 ^ (5 * p)) = false := by
  rw [resolution2_pair_val r h1 (by omega)]
  simp only [_pairLeB, decide_eq_false_iff_not]
  have hcc : (5 * r + 1) / 2 < (5 * p + 1) / 2 := by omega
  have hlt : (360 : ℚ) / 2 ^ ((5 * p + 1) / 2) < 360 / 2 ^ ((5 * r + 1) / 2) :=
    div_lt_div_of_pos_left (by norm_num) (by positivity)
      (pow_lt_pow_right₀ (by norm_num) hcc)
  rintro (h | ⟨heq, _⟩)
  · exact absurd h (lt_asymm hlt)
  · exact absurd heq (ne_of_gt hlt)

/-- C5: feeding both resolutions returned by `resolution2(p, p)` back into
`precision(res1, res2)` returns exactly `p`, for every precision p in 1..12:
the scan in `precision` accepts its first `q` with `resolution2(q, q)`
lexicographically at most the targets, which is exactly `q = p`, and for
`p = 12` the scan over 1..11 finds nothing and falls back to `_MaxPrec`. -/
theorem precision_resolution2_inverse (p : ℕ) (h1 : 1 ≤ p) (h2 : p ≤ 12) :
    precision (resolution2 (p : ℤ) (some (p : ℤ))).1
        (some (resolution2 (p : ℤ) (some (p : ℤ))).2) = Except.ok p := by
  rw [resolution2_pair_val p h1 h2]
  have hA : (0 : ℚ) < 360 / 2 ^ ((5 * p + 1) / 2) := by positivity
  have hB : (0 : ℚ) < 360 / 2 ^ (5 * p) := by positivity
  simp only [precision, not_lt.mpr hA.le, if_false, not_lt.mpr hB.le]
  rcases lt_or_eq_of_le h2 with h12 | h12
  · rw [_find?_range'_some _ p 11 1 h1 (by omega)
      (by rw [resolution2_pair_val p h1 h2]; simp [_pairLeB])
      (fun r hr hrp => _pairLeB_res_false r p hr hrp h2)]
  · subst h12
    rw [_find?_range'_none _ 11 1
      (fun r hr hrr => _pairLeB_res_false r 12 hr (by omega) le_rfl)]
    rfl

/-- Witness for C5's theorem at `p = 7`. -/
theorem precision_resolution2_inverse_witness :
    precision (resolution2 ((7 : ℕ) : ℤ) (some ((7 : ℕ) : ℤ))).1
        (some (resolution2 ((7 : ℕ) : ℤ) (some ((7 : ℕ) : ℤ))).2) =
      Except.ok 7 :=
  precision_resolution2_inverse 7 (by norm_num) (by norm_num)

/-- Loop index of `Geohash.distance1To`: Python runs
`for n in range(bound): if self[n] != other[n]: break`, which leaves the loop
variable at the first differing index, at the final index `bound - 1` when
the loop completes without a break, and at the initial value `bound` (= 0)
when the range is empty.  `i` is the next index, `rem` the remaining
iterations. -/
def _breakGo (g1 g2 : List Char) : ℕ → ℕ → ℕ
  | i, 0 => i
  | i, rem + 1 =>
    if g1.getD i ' ' = g2.getD i ' ' then
      (if rem = 0 then i else _breakGo g1 g2 (i + 1) rem)
    else i

/-- Translation of `Geohash.distance1To` (also exposed as the module function
`distance1(geohash1, geohash2)`): bound the scan by
`min(len(self), len(other), len(_Sizes))` and return the radial size
`_Sizes[n][2]` at the loop's final index. -/
def distance1To (g1 g2 : List Char) : ℚ :=
  _sizesRad (_breakGo g1 g2 0 (min (min g1.length g2.length) _Sizes.length))

/-- Length of the common character prefix of two strings (the notion the
spec's tier-1 distance is phrased in). -/
def commonPrefixLength : List Char → List Char → ℕ
  | a :: as, b :: bs => if a = b then commonPrefixLength as bs + 1 else 0
  | _, _ => 0

/-- One string is a prefix of the other. -/
def prefixLe (a b : List Char) : Prop := ∃ t, a ++ t = b

lemma commonPrefixLength_getD_eq :
    ∀ g1 g2 j, j < commonPrefixLength g1 g2 → g1.getD j ' ' = g2.getD j ' ' := by
  intro g1
  induction g1 with
  | nil => intro g2 j h; simp [commonPrefixLength] at h
  | cons a as ih =>
    intro g2 j h
    match g2 with
    | [] => simp [commonPrefixLength] at h
    | b :: bs =>
      by_cases hab : a = b
      · subst hab
        simp only [commonPrefixLength, if_true, eq_self_iff_true] at h
        match j with
        | 0 => rfl
        | j + 1 =>
          simp only [List.getD_cons_succ]
          exact ih bs j (by omega)
      · simp [commonPrefixLength, hab] at h

lemma commonPrefixLength_getD_ne :
    ∀ g1 g2, commonPrefixLength g1 g2 < g1.length →
      commonPrefixLength g1 g2 < g2.length →
      g1.getD (commonPrefixLength g1 g2) ' ' ≠ g2.getD (commonPrefixLength g1 g2) ' ' := by
  intro g1
  induction g1 with
  | nil => intro g2 h1 _; simp at h1
  | cons a as ih =>
    intro g2 h1 h2
    match g2 with
    | [] => simp [commonPrefixLength] at h2
    | b :: bs =>
      by_cases hab : a = b
      · subst hab
        simp only [commonPrefixLength, if_true, eq_self_iff_true,
          List.length_cons, List.getD_cons_succ] at h1 h2 ⊢
        exact ih bs (by omega) (by omega)
      · simp only [commonPrefixLength, if_neg hab, List.getD_cons_zero]
        exact hab

lemma commonPrefixLength_append :
    ∀ g t : List Char, commonPrefixLength (g ++ t) g = g.length ∧
      commonPrefixLength g (g ++ t) = g.length := by
  intro g t
  induction g with
  | nil =>
    constructor
    · cases t <;> rfl
    · rfl
  | cons a as ih => simp [commonPrefixLength, ih.1, ih.2]

/-- The scan stops at the first differing index. -/
lemma _breakGo_first (g1 g2 : List Char) (k : ℕ) :
    ∀ rem i, i ≤ k → k < i + rem →
      (∀ j, i ≤ j → j < k → g1.getD j ' ' = g2.getD j ' ') →
      g1.getD k ' ' ≠ g2.getD k ' ' → _breakGo g1 g2 i rem = k := by
  intro rem
  induction rem with
  | zero => intro i h1 h2 _ _; omega
  | succ rem ih =>
    intro i h1 h2 heq hne
    by_cases hik : i = k
    · subst hik
      simp only [_breakGo]
      rw [if_neg hne]
    · have hi : g1.getD i ' ' = g2.getD i ' ' := heq i le_rfl (by omega)
      simp only [_breakGo, if_pos hi]
      rw [if_neg (by omega : ¬(rem = 0))]
      exact ih (i + 1) (by omega) (by omega)
        (fun j hj hj2 => heq j (by omega) hj2) hne

/-- If no index in range differs, the scan runs to completion and keeps the
last index. -/
lemma _breakGo_all (g1 g2 : List Char) :
    ∀ rem i, 1 ≤ rem →
      (∀ j, i ≤ j → j < i + rem → g1.getD j ' ' = g2.getD j ' ') →
      _breakGo g1 g2 i rem = i + rem - 1 := by
  intro rem
  induction rem with
  | zero => intro i h _; omega
  | succ rem ih =>
    intro i _ heq
    simp only [_breakGo, if_pos (heq i le_rfl (by omega))]
    by_cases h0 : rem = 0
    · subst h0; simp
    · rw [if_neg h0, ih (i + 1) (by omega)
        (fun j hj hj2 => heq j (by omega) (by omega))]
      omega

/-- Characterization of `distance1To`'s index: the common-prefix length when
the two strings differ inside the scan bound, the last in-bound index
otherwise. -/
lemma distance1To_char (g1 g2 : List Char) (hg1 : g1 ≠ []) (hg2 : g2 ≠ []) :
    distance1To g1 g2 = _sizesRad
      (if commonPrefixLength g1 g2 < min (min g1.length g2.length) _Sizes.length
       then commonPrefixLength g1 g2
       else min (min g1.length g2.length) _Sizes.length - 1) := by
  have hlen : _Sizes.length = 13 := rfl
  have hb1 : 1 ≤ min (min g1.length g2.length) _Sizes.length := by
    have := List.length_pos.mpr hg1
    have := List.length_pos.mpr hg2
    omega
  by_cases h : commonPrefixLength g1 g2 < min (min g1.length g2.length) _Sizes.length
  · rw [if_pos h]
    unfold distance1To
    congr 1
    exact _breakGo_first g1 g2 _ _ 0 (by omega) (by omega)
      (fun j _ hj => commonPrefixLength_getD_eq g1 g2 j hj)
      (commonPrefixLength_getD_ne g1 g2 (by omega) (by omega))
  · rw [if_neg h]
    unfold distance1To
    congr 1
    rw [_breakGo_all g1 g2 _ 0 hb1
      (fun j _ hj => commonPrefixLength_getD_eq g1 g2 j (by omega))]
    omega

/-- Each radial entry of the sizes table is positive. -/
lemma _sizesRad_pos (n : ℕ) (h : n ≤ 12) : 0 < _sizesRad n := by
  interval_cases n <;> norm_num [_sizesRad, _Sizes]

/-- The prefix-or-equal case of `distance1To` indexes the sizes table at
`min(len1, len2) - 1`. -/
lemma distance1To_prefix_val (g1 g2 : List Char)
    (h1 : validGeohash g1) (h2 : validGeohash g2)
    (hp : prefixLe g1 g2 ∨ prefixLe g2 g1) :
    distance1To g1 g2 = _sizesRad (min g1.length g2.length - 1) := by
  obtain ⟨hne1, hl1, -⟩ := h1
  obtain ⟨hne2, hl2, -⟩ := h2
  have hlen : _Sizes.length = 13 := rfl
  have hcpl : commonPrefixLength g1 g2 = min g1.length g2.length := by
    rcases hp with ⟨t, rfl⟩ | ⟨t, rfl⟩
    · rw [(commonPrefixLength_append g1 t).2]
      simp [List.length_append]
    · rw [(commonPrefixLength_append g2 t).1]
      simp [List.length_append]
  rw [distance1To_char g1 g2 hne1 hne2, hcpl, if_neg (by
    simp only [_MaxPrec] at hl1 hl2
    omega)]
  congr 1
  simp only [_MaxPrec] at hl1 hl2
  omega

/-- C2 counterexample: for `g1 = g2 = "0"` the common-prefix length is 1, but
`distance1To` returns `_Sizes[0][2]` (the loop runs to completion and keeps
the last index `0`), not `_Sizes[1][2]`. -/
theorem distance1To_common_claim_false :
    distance1To ['0'] ['0'] ≠ _sizesRad (commonPrefixLength ['0'] ['0']) := by
  have hbk : _breakGo ['0'] ['0'] 0 1 = 0 := by decide
  have hcpl : commonPrefixLength ['0'] ['0'] = 1 := by decide
  unfold distance1To
  rw [hcpl]
  norm_num [hbk, _sizesRad, _Sizes]

/-- C2 (amended): `distance1To` returns the per-precision radial size indexed
by the common-prefix length when the two geohashes differ at some index below
`min(len1, len2, 13)`, and indexed by `min(len1, len2, 13) - 1` when one is a
prefix of the other (as when equal); in particular
`distance1("u120fxwsh", "u120fxws0") = 15.239` meters (prefix length 8). -/
theorem distance1To_prefix_indexed :
    (∀ g1 g2, validGeohash g1 → validGeohash g2 →
      distance1To g1 g2 = _sizesRad
        (if commonPrefixLength g1 g2 < min (min g1.length g2.length) _Sizes.length
         then commonPrefixLength g1 g2
         else min (min g1.length g2.length) _Sizes.length - 1)) ∧
    distance1To ['u', '1', '2', '0', 'f', 'x', 'w', 's', 'h']
        ['u', '1', '2', '0', 'f', 'x', 'w', 's', '0'] = 15.239 := by
  constructor
  · exact fun g1 g2 h1 h2 => distance1To_char g1 g2 h1.1 h2.1
  · have hbk : _breakGo ['u', '1', '2', '0', 'f', 'x', 'w', 's', 'h']
        ['u', '1', '2', '0', 'f', 'x', 'w', 's', '0'] 0 9 = 8 := by decide
    unfold distance1To
    norm_num [hbk, _sizesRad, _Sizes]

/-- Witness for C2's amended theorem at the spec's own example pair. -/
theorem distance1To_prefix_indexed_witness :
    distance1To ['u', '1', '2', '0', 'f', 'x', 'w', 's', 'h']
        ['u', '1', '2', '0', 'f', 'x', 'w', 's', '0'] = _sizesRad
      (if commonPrefixLength ['u', '1', '2', '0', 'f', 'x', 'w', 's', 'h']
            ['u', '1', '2', '0', 'f', 'x', 'w', 's', '0'] <
          min (min (['u', '1', '2', '0', 'f', 'x', 'w', 's', 'h'] : List Char).length
            (['u', '1', '2', '0', 'f', 'x', 'w', 's', '0'] : List Char).length)
            _Sizes.length
       then commonPrefixLength ['u', '1', '2', '0', 'f', 'x', 'w', 's', 'h']
            ['u', '1', '2', '0', 'f', 'x', 'w', 's', '0']
       else min (min (['u', '1', '2', '0', 'f', 'x', 'w', 's', 'h'] : List Char).length
            (['u', '1', '2', '0', 'f', 'x', 'w', 's', '0'] : List Char).length)
            _Sizes.length - 1) :=
  distance1To_prefix_indexed.1 _ _ (by decide) (by decide)

/-- C10: the tier-1 distance of a valid geohash to itself is strictly
positive, and more generally `distance1To` on a prefix pair (in particular on
an equal pair) returns the radial size indexed by `min(len1, len2) - 1`. -/
theorem distance1To_self_positive :
    (∀ g, validGeohash g → 0 < distance1To g g) ∧
    (∀ g1 g2, validGeohash g1 → validGeohash g2 →
      prefixLe g1 g2 ∨ prefixLe g2 g1 →
      distance1To g1 g2 = _sizesRad (min g1.length g2.length - 1)) := by
  constructor
  · intro g hg
    rw [distance1To_prefix_val g g hg hg (Or.inl ⟨[], List.append_nil g⟩)]
    have := hg.2.1
    simp only [_MaxPrec] at this
    exact _sizesRad_pos _ (by omega)
  · intro g1 g2 h1 h2 hp
    exact distance1To_prefix_val g1 g2 h1 h2 hp

/-- Witness for C10's theorem: the cell `"k"` has positive self-distance. -/
theorem distance1To_self_positive_witness : 0 < distance1To ['k'] ['k'] :=
  distance1To_self_positive.1 ['k'] (by decide)

/-- Neighbor permutation string `n` of `_4d`. -/
def _nbrN : List Char := "p0r21436x8zb9dcf5h7kjnmqesgutwvy".data

/-- Neighbor permutation string `e` of `_4d`. -/
def _nbrE : List Char := "bc01fg45238967deuvhjyznpkmstqrwx".data

/-- Neighbor permutation string `s` of `_4d`. -/
def _nbrS : List Char := "14365h7k9dcfesgujnmqp0r2twvyx8zb".data

/-- Neighbor permutation string `w` of `_4d`. -/
def _nbrW : List Char := "238967debc01fg45kmstqrwxuvhjyznp".data

/-- The neighbor tables `_Neighbor[d][e]`, built by `_4d(n, e, s, w)` as
`N = (n, e)`, `S = (s, w)`, `E = (e, n)`, `W = (w, s)`, indexed by the
length parity `e`.  Directions other than the four keys never reach a table
lookup (the membership test fails first). -/
def _Neighbor (d : Char) (e : ℕ) : List Char :=
  if d = 'N' then (if e = 0 then _nbrN else _nbrE)
  else if d = 'S' then (if e = 0 then _nbrS else _nbrW)
  else if d = 'E' then (if e = 0 then _nbrE else _nbrN)
  else if d = 'W' then (if e = 0 then _nbrW else _nbrS)
  else []

/-- Border string `n` of `_4d`. -/
def _bordN : List Char := "prxz".data

/-- Border string `e` of `_4d`. -/
def _bordE : List Char := "bcfguvyz".data

/-- Border string `s` of `_4d`. -/
def _bordS : List Char := "028b".data

/-- Border string `w` of `_4d`. -/
def _bordW : List Char := "0145hjnp".data

/-- The border tables `_Border[d][e]`, built by `_4d(n, e, s, w)` exactly like
`_Neighbor`. -/
def _Border (d : Char) (e : ℕ) : List Char :=
  if d = 'N' then (if e = 0 then _bordN else _bordE)
  else if d = 'S' then (if e = 0 then _bordS else _bordW)
  else if d = 'E' then (if e = 0 then _bordE else _bordN)
  else if d = 'W' then (if e = 0 then _bordW else _bordS)
  else []

/-- The four direction keys of `_Neighbor` and `_Border`. -/
def _dirs : List Char := ['N', 'S', 'E', 'W']

/-- The opposite cardinal direction. -/
def _oppc (d : Char) : Char :=
  if d = 'N' then 'S' else if d = 'S' then 'N'
  else if d = 'E' then 'W' else if d = 'W' then 'E' else d

/-- One letter step of `Geohash.adjacent`: the new last character is
`_GeohashBase32[i]` where `i = _Neighbor[d][e].find(c)` is the position of
the old last character in the permutation string.  The `getD` default is
never used: at every use the index is a valid position because `c` occurs in
the table. -/
def _nmap (d : Char) (e : ℕ) (c : Char) : Char :=
  _GeohashBase32.getD ((_Neighbor d e).indexOf c) '0'

/-- Translation of the body of `Geohash.adjacent` for a normalized direction
`d`, on the reversed character list: the Python code peels the last character
`c = self[-1:]` and recurses on the parent `p = self[:-1]`, which on the
reversed list is structural recursion.  `e = len(self) & 1` is
`(p.length + 1) % 2`.  A character absent from the permutation table
(`find` returns `i < 0`) raises the table-corruption flavour of
`GeohashError(geohash=self)`; the recursive call goes through `Geohash(p)`,
whose validation cannot fail because the parent of a valid geohash is a
valid geohash.  The empty case is unreachable from a `Geohash`, which is
never empty. -/
def adjacentRev (d : Char) : List Char → Except GhError (List Char)
  | [] => Except.error GhError.invalidGeohash
  | c :: p =>
    let e := (p.length + 1) % 2
    if (_Neighbor d e).contains c then
      if p ≠ [] ∧ c ∈ _Border d e then
        match adjacentRev d p with
        | Except.error err => Except.error err
        | Except.ok p2 => Except.ok (_nmap d e c :: p2)
      else Except.ok (_nmap d e c :: p)
    else Except.error GhError.tableCorruption

/-- `Geohash.adjacent` for a normalized direction, on strings in their usual
order. -/
def adjacentGo (d : Char) (g : List Char) : Except GhError (List Char) :=
  Except.map List.reverse (adjacentRev d g.reverse)

/-- Translation of `Geohash.adjacent(direction)`: normalize the direction as
`direction[:1].upper()` (the first character uppercased; an empty direction
normalizes to the empty string, which is not a table key) and fail with the
invalid-direction `GeohashError` unless the normalized direction is one of
the four keys of `_Neighbor`.  `Char.toUpper` models `str.upper` on the
single character (they agree on ASCII). -/
def adjacent (g : List Char) (direction : String) : Except GhError (List Char) :=
  match direction.data with
  | [] => Except.error GhError.invalidDirection
  | dc :: _ =>
    if dc.toUpper = 'N' ∨ dc.toUpper = 'S' ∨ dc.toUpper = 'E' ∨ dc.toUpper = 'W' then
      adjacentGo dc.toUpper g
    else Except.error GhError.invalidDirection

/-- The normalized first letter of the direction argument is a cardinal
direction key. -/
def _isCardinal1 (direction : String) : Bool :=
  match direction.data with
  | [] => false
  | dc :: _ =>
    decide (dc.toUpper = 'N' ∨ dc.toUpper = 'S' ∨ dc.toUpper = 'E' ∨ dc.toUpper = 'W')

/-- Finite facts about the direction tables, checked by evaluation: every
alphabet character occurs in every neighbor permutation string; the mapped
character is again in the alphabet and in the opposite table; mapping with
`d` and then with the opposite direction at the same parity is the identity
on the alphabet; and the border sets correspond under the mapping. -/
lemma _tableFacts :
    ∀ d ∈ _dirs, ∀ e ∈ ([0, 1] : List ℕ), ∀ c ∈ _GeohashBase32,
      (_Neighbor d e).contains c = true ∧
      _nmap d e c ∈ _GeohashBase32 ∧
      (_Neighbor (_oppc d) e).contains (_nmap d e c) = true ∧
      _nmap (_oppc d) e (_nmap d e c) = c ∧
      (c ∈ _Border d e ↔ _nmap d e c ∈ _Border (_oppc d) e) := by decide

lemma _mod_two_mem (n : ℕ) : n % 2 ∈ ([0, 1] : List ℕ) := by
  rcases Nat.mod_two_eq_zero_or_one n with h | h <;> simp [h]

/-- Unfolding `adjacentRev` one step in the border-carry case. -/
lemma adjacentRev_cons_carry {d c : Char} {p : List Char}
    (hcon : (_Neighbor d ((p.length + 1) % 2)).contains c = true)
    (hcarry : p ≠ [] ∧ c ∈ _Border d ((p.length + 1) % 2)) :
    adjacentRev d (c :: p) =
      match adjacentRev d p with
      | Except.error err => Except.error err
      | Except.ok p2 => Except.ok (_nmap d ((p.length + 1) % 2) c :: p2) := by
  simp only [adjacentRev, hcon, if_true, if_pos hcarry]

/-- Unfolding `adjacentRev` one step when no carry happens. -/
lemma adjacentRev_cons_nocarry {d c : Char} {p : List Char}
    (hcon : (_Neighbor d ((p.length + 1) % 2)).contains c = true)
    (hncarry : ¬(p ≠ [] ∧ c ∈ _Border d ((p.length + 1) % 2))) :
    adjacentRev d (c :: p) = Except.ok (_nmap d ((p.length + 1) % 2) c :: p) := by
  simp only [adjacentRev, hcon, if_true, if_neg hncarry]

/-- For a valid geohash and a cardinal direction, `adjacentRev` succeeds and
returns a string of the same length over the alphabet. -/
lemma adjacentRev_ok (d : Char) (hd : d ∈ _dirs) :
    ∀ rg, rg ≠ [] → (∀ c ∈ rg, c ∈ _GeohashBase32) →
      ∃ rh, adjacentRev d rg = Except.ok rh ∧ rh.length = rg.length ∧
        ∀ c ∈ rh, c ∈ _GeohashBase32 := by
  intro rg
  induction rg with
  | nil => intro h; exact absurd rfl h
  | cons c p ih =>
    intro _ hmem
    have hc : c ∈ _GeohashBase32 := hmem c (List.mem_cons_self c p)
    obtain ⟨hcon, hnm, -, -, -⟩ :=
      _tableFacts d hd ((p.length + 1) % 2) (_mod_two_mem (p.length + 1)) c hc
    by_cases hcarry : p ≠ [] ∧ c ∈ _Border d ((p.length + 1) % 2)
    · obtain ⟨rp2, hrp2, hlen2, hmem2⟩ :=
        ih hcarry.1 (fun x hx => hmem x (List.mem_cons_of_mem c hx))
      refine ⟨_nmap d ((p.length + 1) % 2) c :: rp2, ?_, by simp [hlen2], ?_⟩
      · rw [adjacentRev_cons_carry hcon hcarry, hrp2]
      · intro x hx
        rcases List.mem_cons.mp hx with h | h
        · exact h ▸ hnm
        · exact hmem2 x h
    · refine ⟨_nmap d ((p.length + 1) % 2) c :: p, ?_, rfl, ?_⟩
      · exact adjacentRev_cons_nocarry hcon hcarry
      · intro x hx
        rcases List.mem_cons.mp hx with h | h
        · exact h ▸ hnm
        · exact hmem x (List.mem_cons_of_mem c h)

/-- Every character of the (reversed) string is in the border set for its
parity: exactly the condition under which the carry in `adjacent` propagates
through the whole string. -/
def _allBorder (d : Char) : List Char → Bool
  | [] => true
  | c :: p => (decide (c ∈ _Border d ((p.length + 1) % 2))) && _allBorder d p

/-- Round trip of `adjacentRev`: when the border carry does not propagate
through the entire string, following direction `d` and then its opposite
returns the original string. -/
lemma adjacentRev_inv (d : Char) (hd : d ∈ _dirs) :
    ∀ rg, rg ≠ [] → (∀ c ∈ rg, c ∈ _GeohashBase32) →
      _allBorder d rg = false →
      ∃ rh, adjacentRev d rg = Except.ok rh ∧ rh.length = rg.length ∧
        adjacentRev (_oppc d) rh = Except.ok rg := by
  intro rg
  induction rg with
  | nil => intro h; exact absurd rfl h
  | cons c p ih =>
    intro _ hmem hab
    have hc : c ∈ _GeohashBase32 := hmem c (List.mem_cons_self c p)
    obtain ⟨hcon, hnm, hcon2, hinv, hbord⟩ :=
      _tableFacts d hd ((p.length + 1) % 2) (_mod_two_mem (p.length + 1)) c hc
    by_cases hcb : c ∈ _Border d ((p.length + 1) % 2)
    · have habp : _allBorder d p = false := by
        simp only [_allBorder, decide_eq_true hcb, Bool.true_and] at hab
        exact hab
      have hpne : p ≠ [] := by
        intro h; subst h; simp [_allBorder] at habp
      obtain ⟨rp2, hrp2, hlen2, hback⟩ :=
        ih hpne (fun x hx => hmem x (List.mem_cons_of_mem c hx)) habp
      refine ⟨_nmap d ((p.length + 1) % 2) c :: rp2, ?_, by simp [hlen2], ?_⟩
      · rw [adjacentRev_cons_carry hcon ⟨hpne, hcb⟩, hrp2]
      · have he2 : (rp2.length + 1) % 2 = (p.length + 1) % 2 := by rw [hlen2]
        have hrp2ne : rp2 ≠ [] := by
          intro h
          subst h
          exact hpne (List.length_eq_zero.mp hlen2.symm)
        have hcon2' : (_Neighbor (_oppc d) ((rp2.length + 1) % 2)).contains
            (_nmap d ((p.length + 1) % 2) c) = true := by rw [he2]; exact hcon2
        have hb2 : _nmap d ((p.length + 1) % 2) c ∈
            _Border (_oppc d) ((rp2.length + 1) % 2) := by
          rw [he2]; exact hbord.mp hcb
        rw [adjacentRev_cons_carry hcon2' ⟨hrp2ne, hb2⟩, hback, he2, hinv]
    · refine ⟨_nmap d ((p.length + 1) % 2) c :: p, ?_, rfl, ?_⟩
      · exact adjacentRev_cons_nocarry hcon (fun h => hcb h.2)
      · have hb2 : ¬(_nmap d ((p.length + 1) % 2) c ∈
            _Border (_oppc d) ((p.length + 1) % 2)) := fun h => hcb (hbord.mpr h)
        rw [adjacentRev_cons_nocarry hcon2 (fun h => hb2 h.2), hinv]

/-- C8: each of the eight neighbor permutation strings contains every
alphabet character, so for a valid geohash and a cardinal direction the
last-character lookup always succeeds and the table-corruption error branch
of `adjacent` is unreachable. -/
theorem neighbor_tables_complete :
    (∀ d ∈ _dirs, ∀ e ∈ ([0, 1] : List ℕ), ∀ c ∈ _GeohashBase32,
      (_Neighbor d e).contains c = true) ∧
    (∀ g d, validGeohash g → d ∈ _dirs →
      adjacentGo d g ≠ Except.error GhError.tableCorruption) := by
  constructor
  · intro d hd e he c hc
    exact (_tableFacts d hd e he c hc).1
  · intro g d hg hd
    have hne : g.reverse ≠ [] := fun h => hg.1 (List.reverse_eq_nil_iff.mp h)
    obtain ⟨rh, hrh, -, -⟩ := adjacentRev_ok d hd g.reverse hne
      (fun c hc => hg.2.2 c (List.mem_reverse.mp hc))
    simp [adjacentGo, hrh, Except.map]

/-- Witness for C8's theorem at the cell `"0"` and direction N. -/
theorem neighbor_tables_complete_witness :
    adjacentGo 'N' ['0'] ≠ Except.error GhError.tableCorruption :=
  neighbor_tables_complete.2 ['0'] 'N' (by decide) (by decide)

/-- C3 counterexample: the direction argument `"NE"` is not one of the four
cardinal directions, yet `adjacent` does not fail with the invalid-direction
error: it silently normalizes the argument to its first letter `"N"` and
returns the northern neighbor. -/
theorem adjacent_direction_claim_false :
    (("NE" : String) ≠ "N" ∧ ("NE" : String) ≠ "S" ∧
     ("NE" : String) ≠ "E" ∧ ("NE" : String) ≠ "W") ∧
    adjacent ['u'] "NE" ≠ Except.error GhError.invalidDirection := by
  exact ⟨⟨by decide, by decide, by decide, by decide⟩, by decide⟩

/-- C3 (amended): for a valid geohash, `adjacent(g, direction)` fails with the
invalid-direction error if and only if the first character of the direction
argument, uppercased, is not one of N, S, E, W (in particular an empty
direction fails; `"n"`, `"north"` or `"NE"` are accepted as N). -/
theorem adjacent_invalidDirection_iff (g : List Char) (direction : String)
    (hg : validGeohash g) :
    adjacent g direction = Except.error GhError.invalidDirection ↔
      _isCardinal1 direction = false := by
  have hne : g.reverse ≠ [] := fun h => hg.1 (List.reverse_eq_nil_iff.mp h)
  have hmem : ∀ c ∈ g.reverse, c ∈ _GeohashBase32 :=
    fun c hc => hg.2.2 c (List.mem_reverse.mp hc)
  unfold adjacent _isCardinal1
  cases hdir : direction.data with
  | nil => simp
  | cons dc rest =>
    show (if dc.toUpper = 'N' ∨ dc.toUpper = 'S' ∨ dc.toUpper = 'E' ∨ dc.toUpper = 'W' then
        adjacentGo dc.toUpper g else Except.error GhError.invalidDirection) =
        Except.error GhError.invalidDirection ↔
      decide (dc.toUpper = 'N' ∨ dc.toUpper = 'S' ∨ dc.toUpper = 'E' ∨ dc.toUpper = 'W') = false
    by_cases hc : dc.toUpper = 'N' ∨ dc.toUpper = 'S' ∨ dc.toUpper = 'E' ∨ dc.toUpper = 'W'
    · rw [if_pos hc]
      have hd : dc.toUpper ∈ _dirs := by
        rcases hc with h | h | h | h <;> simp [_dirs, h]
      obtain ⟨rh, hrh, -, -⟩ := adjacentRev_ok dc.toUpper hd g.reverse hne hmem
      simp [adjacentGo, hrh, hc, Except.map]
    · rw [if_neg hc]
      simp [hc]

/-- Witness for C3's amended theorem: direction `"q"` is rejected. -/
theorem adjacent_invalidDirection_iff_witness :
    adjacent ['u'] "q" = Except.error GhError.invalidDirection ↔
      _isCardinal1 "q" = false :=
  adjacent_invalidDirection_iff ['u'] "q" (by decide)

/-- Fuel-indexed variant of `adjacentRev`: each recursive call of the
parent-carry consumes one unit of fuel, so the fuel needed is exactly the
recursion depth. -/
def adjacentRevFuel (d : Char) : ℕ → List Char → Option (Except GhError (List Char))
  | 0, _ => none
  | _ + 1, [] => some (Except.error GhError.invalidGeohash)
  | fuel + 1, c :: p =>
    let e := (p.length + 1) % 2
    if (_Neighbor d e).contains c then
      if p ≠ [] ∧ c ∈ _Border d e then
        match adjacentRevFuel d fuel p with
        | none => none
        | some (Except.error err) => some (Except.error err)
        | some (Except.ok p2) => some (Except.ok (_nmap d e c :: p2))
      else some (Except.ok (_nmap d e c :: p))
    else some (Except.error GhError.tableCorruption)

/-- Fuel equal to the string length suffices: each recursive call is on a
strictly shorter string. -/
lemma adjacentRevFuel_eq (d : Char) :
    ∀ fuel rg, rg ≠ [] → rg.length ≤ fuel →
      adjacentRevFuel d fuel rg = some (adjacentRev d rg) := by
  intro fuel
  induction fuel with
  | zero =>
    intro rg h1 h2
    have := List.length_pos.mpr h1
    omega
  | succ fuel ih =>
    intro rg h1 h2
    match rg with
    | c :: p =>
      simp only [adjacentRevFuel, adjacentRev]
      by_cases hcon : ((_Neighbor d ((p.length + 1) % 2)).contains c) = true
      · simp only [hcon, if_true]
        by_cases hcarry : p ≠ [] ∧ c ∈ _Border d ((p.length + 1) % 2)
        · rw [if_pos hcarry, if_pos hcarry,
            ih p hcarry.1 (by simp only [List.length_cons] at h2; omega)]
          cases adjacentRev d p <;> rfl
        · rw [if_neg hcarry, if_neg hcarry]
      · simp only [Bool.not_eq_true] at hcon
        rw [hcon]
        rfl

/-- C9: the recursive parent-carry of `adjacent` terminates for every valid
geohash and cardinal direction; the recursion depth is bounded by the
geohash length, which is at most `_MaxPrec = 12`: with that much fuel the
fuel-indexed recursion completes and agrees with the recursive function. -/
theorem adjacent_recursion_depth_bounded (g : List Char) (d : Char)
    (hg : validGeohash g) (hd : d ∈ _dirs) :
    adjacentRevFuel d g.length g.reverse = some (adjacentRev d g.reverse) ∧
    adjacentRevFuel d _MaxPrec g.reverse = some (adjacentRev d g.reverse) := by
  have hne : g.reverse ≠ [] := fun h => hg.1 (List.reverse_eq_nil_iff.mp h)
  have hlen : g.reverse.length = g.length := List.length_reverse g
  have hmax := hg.2.1
  exact ⟨adjacentRevFuel_eq d g.length g.reverse hne (by omega),
         adjacentRevFuel_eq d _MaxPrec g.reverse hne (by omega)⟩

/-- Witness for C9's theorem at the cell `"e"` and direction E. -/
theorem adjacent_recursion_depth_bounded_witness :
    adjacentRevFuel 'E' (['e'] : List Char).length (['e'] : List Char).reverse =
      some (adjacentRev 'E' (['e'] : List Char).reverse) ∧
    adjacentRevFuel 'E' _MaxPrec (['e'] : List Char).reverse =
      some (adjacentRev 'E' (['e'] : List Char).reverse) :=
  adjacent_recursion_depth_bounded ['e'] 'E' (by decide) (by decide)

/-- The five bits of a base-32 digit, MSB first: the masks `(16, 8, 4, 2, 1)`
of the decode loop (`i & m`). -/
def _charBits (v : ℕ) : List Bool :=
  [v.testBit 4, v.testBit 3, v.testBit 2, v.testBit 1, v.testBit 0]

/-- The bit stream of a geohash: each character contributes the five bits of
its `_DecodedBase32` value (its index in the alphabet), MSB first. -/
def _bitsOf (g : List Char) : List Bool :=
  g.bind fun c => _charBits (_GeohashBase32.indexOf c)

/-- The four bounds `(latS, lonW, latN, lonE)` of a `Bounds4Tuple`. -/
structure Bounds4 where
  latS : ℚ
  lonW : ℚ
  latN : ℚ
  lonE : ℚ
  deriving DecidableEq

/-- The alternating-axis bisection loop of `bounds`: for each bit, halve the
active axis toward the half the bit selects, starting with longitude
(`d = True`); `favg(a, b) = a + 0.5 * (b - a)` is exactly `(a + b) / 2`. -/
def _bisectGo : List Bool → Bool → ℚ → ℚ → ℚ → ℚ → Bounds4
  | [], _, s, w, n, e => ⟨s, w, n, e⟩
  | b :: bs, d, s, w, n, e =>
    if d then
      if b then _bisectGo bs (!d) s ((w + e) / 2) n e
      else _bisectGo bs (!d) s w n ((w + e) / 2)
    else
      if b then _bisectGo bs (!d) ((s + n) / 2) w n e
      else _bisectGo bs (!d) s w ((s + n) / 2) e

/-- Translation of `bounds(geohash)`: reject empty strings and strings with a
character outside `_DecodedBase32` (the `KeyError` branch), then run the
bisection from the whole domain `_Bounds4 = (-90, -180, 90, 180)`. -/
def bounds (g : List Char) : Except GhError Bounds4 :=
  if g.length < 1 then Except.error GhError.invalidGeohash
  else if g.all (fun c => decide (c ∈ _GeohashBase32)) then
    Except.ok (_bisectGo (_bitsOf g) true (-90) (-180) 90 180)
  else Except.error GhError.invalidGeohash

/-- Bounded search for `⌊log10 x⌋`: the largest `z = 2 - k` with
`10 ^ z ≤ x`, scanning `k = 0, 1, ...` downwards in `z` (every dimension the
decoder sees lies well inside `(10 ^ -101, 10 ^ 3)`). -/
def _fl10Go (x : ℚ) : ℕ → ℕ → ℤ
  | 0, _ => -101
  | fuel + 1, k =>
    if (if k ≤ 2 then ((10 : ℚ) ^ (2 - k) ≤ x) else (1 ≤ x * 10 ^ (k - 2))) then
      2 - (k : ℤ)
    else _fl10Go x fuel (k + 1)

/-- `⌊log10 x⌋` for the dimensions of geohash boxes. -/
def _floorLog10 (x : ℚ) : ℤ := _fl10Go x 103 0

/-- `int(2 - log10(h))`, Python truncation toward zero, for an `h` that is
not an exact power of ten (the box dimensions `180 / 2 ^ k` and
`360 / 2 ^ k` never are, having the prime factor 3): with
`z = ⌊log10 h⌋` the real `2 - log10 h` lies strictly between `1 - z` and
`2 - z`, so it truncates to `1 - z` when `1 - z ≥ 0` (i.e. `z ≤ 1`) and to
`2 - z` otherwise. -/
def _i2ml10 (h : ℚ) : ℤ :=
  if _floorLog10 h ≤ 1 then 1 - _floorLog10 h else 2 - _floorLog10 h

/-- Round half to even, the correct rounding of CPython's `%.*f` float
formatting, applied here to the exact value. -/
def _rhe (x : ℚ) : ℤ :=
  if x - ⌊x⌋ < 1 / 2 then ⌊x⌋
  else if 1 / 2 < x - ⌊x⌋ then ⌊x⌋ + 1
  else if ⌊x⌋ % 2 = 0 then ⌊x⌋ else ⌊x⌋ + 1

/-- Value of `fstr(x, prec=prec)`: round `x` to `prec` decimal places.  The
trailing-zero strip and the round trip through `float(...)` preserve the
value. -/
def _fstrQ (x : ℚ) (prec : ℤ) : ℚ :=
  if 0 ≤ prec then (_rhe (x * 10 ^ prec.toNat) : ℚ) / 10 ^ prec.toNat
  else (_rhe (x / 10 ^ (-prec).toNat) : ℚ) * 10 ^ (-prec).toNat

/-- Translation of `decode2(geohash)` (the `float` values of the strings
returned by `decode`): the box center `(favg(latN, latS), favg(lonE, lonW))`
with each axis independently rounded to `int(2 - log10(dimension))` decimal
places, the dimensions being the box height and width of `_bounds3`. -/
def decode2 (g : List Char) : Except GhError (ℚ × ℚ) :=
  match bounds g with
  | Except.error err => Except.error err
  | Except.ok b =>
    Except.ok (_fstrQ ((b.latN + b.latS) / 2) (_i2ml10 (b.latN - b.latS)),
               _fstrQ ((b.lonE + b.lonW) / 2) (_i2ml10 (b.lonE - b.lonW)))

/-- The 5-bit accumulator of `encode`: `i += i`, plus one on the upper half,
over one character's worth of bits. -/
def _bitsVal (bs : List Bool) : ℕ :=
  bs.foldl (fun i b => 2 * i + (if b then 1 else 0)) 0

/-- The bisection loop of `encode`: one bit per iteration, narrowing the box
toward the coordinate on the alternating active axis; `lon < m` (resp.
`lat < m`) takes the lower half emitting 0, otherwise the upper half
emitting 1. -/
def _encodeGo (lat lon : ℚ) : ℕ → Bool → ℚ → ℚ → ℚ → ℚ → List Bool
  | 0, _, _, _, _, _ => []
  | k + 1, d, s, w, n, e =>
    if d then
      if lon < (e + w) / 2 then false :: _encodeGo lat lon k (!d) s w n ((e + w) / 2)
      else true :: _encodeGo lat lon k (!d) s ((e + w) / 2) n e
    else
      if lat < (n + s) / 2 then false :: _encodeGo lat lon k (!d) s w ((n + s) / 2) e
      else true :: _encodeGo lat lon k (!d) ((n + s) / 2) w n e

/-- Group the bit stream five at a time into base-32 characters (`b == 5`
appends `_GeohashBase32[i]`); the index is always below 32, so the `getD`
default is never used. -/
def _toChars : ℕ → List Bool → List Char
  | 0, _ => []
  | p + 1, bs => _GeohashBase32.getD (_bitsVal (bs.take 5)) '0' :: _toChars p (bs.drop 5)

/-- Translation of `encode(lat, lon, precision)` for an explicit precision
`p` (which `Precision_` validates to 1..12): `5 p` bits of alternating
bisection starting with longitude from the whole domain. -/
def encode (lat lon : ℚ) (p : ℕ) : List Char :=
  _toChars p (_encodeGo lat lon (5 * p) true (-90) (-180) 90 180)

/-- `EPS` from `pygeodesy.interns`: the machine epsilon
`2.220446049250313e-16 = 2 ^ -52`. -/
def EPS : ℚ := 1 / 2 ^ 52

/-- Number of longitude bits among `m` alternating bits starting with flag
`d` (`d = true` means the next bit is a longitude bit). -/
def _lonCnt (d : Bool) (m : ℕ) : ℕ := if d then (m + 1) / 2 else m / 2

/-- Number of latitude bits among `m` alternating bits starting with flag
`d`. -/
def _latCnt (d : Bool) (m : ℕ) : ℕ := if d then m / 2 else (m + 1) / 2

/-- Each bisection bit halves the active axis exactly, so the final box
height and width are the initial ones divided by two to the number of bits
spent on each axis. -/
lemma _bisectGo_size :
    ∀ (bs : List Bool) (d : Bool) (s w n e : ℚ),
      ((_bisectGo bs d s w n e).latN - (_bisectGo bs d s w n e).latS) *
          2 ^ _latCnt d bs.length = n - s ∧
      ((_bisectGo bs d s w n e).lonE - (_bisectGo bs d s w n e).lonW) *
          2 ^ _lonCnt d bs.length = e - w := by
  intro bs
  induction bs with
  | nil => intro d s w n e; simp [_bisectGo, _latCnt, _lonCnt]
  | cons b bs ih =>
    intro d s w n e
    have hlatT : _latCnt true (bs.length + 1) = _latCnt false bs.length := by
      simp [_latCnt]
    have hlatF : _latCnt false (bs.length + 1) = _latCnt true bs.length + 1 := by
      simp [_latCnt]; omega
    have hlonT : _lonCnt true (bs.length + 1) = _lonCnt false bs.length + 1 := by
      simp [_lonCnt]; omega
    have hlonF : _lonCnt false (bs.length + 1) = _lonCnt true bs.length := by
      simp [_lonCnt]
    cases d
    · cases b
      · -- latitude bit 0: n := (s + n) / 2
        constructor
        · show ((_bisectGo bs true s w ((s + n) / 2) e).latN -
              (_bisectGo bs true s w ((s + n) / 2) e).latS) *
              2 ^ _latCnt false (bs.length + 1) = n - s
          rw [hlatF, pow_succ]
          linear_combination 2 * (ih true s w ((s + n) / 2) e).1
        · show ((_bisectGo bs true s w ((s + n) / 2) e).lonE -
              (_bisectGo bs true s w ((s + n) / 2) e).lonW) *
              2 ^ _lonCnt false (bs.length + 1) = e - w
          rw [hlonF]
          exact (ih true s w ((s + n) / 2) e).2
      · -- latitude bit 1: s := (s + n) / 2
        constructor
        · show ((_bisectGo bs true ((s + n) / 2) w n e).latN -
              (_bisectGo bs true ((s + n) / 2) w n e).latS) *
              2 ^ _latCnt false (bs.length + 1) = n - s
          rw [hlatF, pow_succ]
          linear_combination 2 * (ih true ((s + n) / 2) w n e).1
        · show ((_bisectGo bs true ((s + n) / 2) w n e).lonE -
              (_bisectGo bs true ((s + n) / 2) w n e).lonW) *
              2 ^ _lonCnt false (bs.length + 1) = e - w
          rw [hlonF]
          exact (ih true ((s + n) / 2) w n e).2
    · cases b
      · -- longitude bit 0: e := (w + e) / 2
        constructor
        · show ((_bisectGo bs false s w n ((w + e) / 2)).latN -
              (_bisectGo bs false s w n ((w + e) / 2)).latS) *
              2 ^ _latCnt true (bs.length + 1) = n - s
          rw [hlatT]
          exact (ih false s w n ((w + e) / 2)).1
        · show ((_bisectGo bs false s w n ((w + e) / 2)).lonE -
              (_bisectGo bs false s w n ((w + e) / 2)).lonW) *
              2 ^ _lonCnt true (bs.length + 1) = e - w
          rw [hlonT, pow_succ]
          linear_combination 2 * (ih false s w n ((w + e) / 2)).2
      · -- longitude bit 1: w := (w + e) / 2
        constructor
        · show ((_bisectGo bs false s ((w + e) / 2) n e).latN -
              (_bisectGo bs false s ((w + e) / 2) n e).latS) *
              2 ^ _latCnt true (bs.length + 1) = n - s
          rw [hlatT]
          exact (ih false s ((w + e) / 2) n e).1
        · show ((_bisectGo bs false s ((w + e) / 2) n e).lonE -
              (_bisectGo bs false s ((w + e) / 2) n e).lonW) *
              2 ^ _lonCnt true (bs.length + 1) = e - w
          rw [hlonT, pow_succ]
          linear_combination 2 * (ih false s ((w + e) / 2) n e).2

/-- Round half to even is within half a unit of the exact value. -/
lemma _rhe_abs (x : ℚ) : |(_rhe x : ℚ) - x| ≤ 1 / 2 := by
  have hf := Int.floor_le x
  have hf2 := Int.lt_floor_add_one x
  unfold _rhe
  split_ifs with h1 h2 h3 <;> rw [abs_le] <;> constructor <;> push_cast <;>
    first
      | linarith
      | (push_cast at h1 h2; linarith)
      | (push_cast at h1 h2 h3; linarith)


/-- Decimal rounding to `prec ≥ 0` places moves the value by at most half of
the last decimal place. -/
lemma _fstrQ_abs (x : ℚ) (prec : ℤ) (hp : 0 ≤ prec) :
    |_fstrQ x prec - x| ≤ (1 / 10 ^ prec.toNat) / 2 := by
  unfold _fstrQ
  rw [if_pos hp]
  have hpow : (0 : ℚ) < 10 ^ prec.toNat := by positivity
  have h := _rhe_abs (x * 10 ^ prec.toNat)
  have hrw : (_rhe (x * 10 ^ prec.toNat) : ℚ) / 10 ^ prec.toNat - x =
      ((_rhe (x * 10 ^ prec.toNat) : ℚ) - x * 10 ^ prec.toNat) / 10 ^ prec.toNat := by
    field_simp
    ring
  rw [hrw, abs_div, abs_of_pos hpow, div_le_div_iff hpow (by positivity)]
  calc |(_rhe (x * 10 ^ prec.toNat) : ℚ) - x * 10 ^ prec.toNat| * 2
      ≤ (1 / 2) * 2 := by
        apply mul_le_mul_of_nonneg_right h
        norm_num
    _ = (1 / 10 ^ prec.toNat) * 10 ^ prec.toNat := by
        field_simp
  
/-- When the decimal resolution is strictly finer than the interval, the
rounded midpoint stays inside the interval. -/
lemma _round_center_mem (lo hi : ℚ) (prec : ℤ) (h0 : 0 ≤ prec) (hlh : lo < hi)
    (hres : (1 : ℚ) / 10 ^ prec.toNat < hi - lo) :
    lo ≤ _fstrQ ((hi + lo) / 2) prec ∧ _fstrQ ((hi + lo) / 2) prec ≤ hi := by
  have h := _fstrQ_abs ((hi + lo) / 2) prec h0
  rw [abs_le] at h
  constructor <;> linarith [h.1, h.2]

/-- The scan of `_fl10Go` either exhausts its fuel or stops at the first
exponent whose test holds; in that case the test at the stopping point is
true. -/
lemma _fl10Go_spec (x : ℚ) :
    ∀ fuel k, _fl10Go x fuel k = -101 ∨
      ∃ j : ℕ, k ≤ j ∧ _fl10Go x fuel k = 2 - (j : ℤ) ∧
        (if j ≤ 2 then ((10 : ℚ) ^ (2 - j) ≤ x) else (1 ≤ x * 10 ^ (j - 2))) := by
  intro fuel
  induction fuel with
  | zero => intro k; exact Or.inl rfl
  | succ fuel ih =>
    intro k
    by_cases hc : (if k ≤ 2 then ((10 : ℚ) ^ (2 - k) ≤ x) else (1 ≤ x * 10 ^ (k - 2)))
    · exact Or.inr ⟨k, le_rfl, by simp [_fl10Go, hc], hc⟩
    · have : _fl10Go x (fuel + 1) k = _fl10Go x fuel (k + 1) := by
        simp [_fl10Go, hc]
      rw [this]
      rcases ih (k + 1) with h | ⟨j, hj1, hj2, hj3⟩
      · exact Or.inl h
      · exact Or.inr ⟨j, by omega, hj2, hj3⟩

/-- The scan does not exhaust its fuel when some exponent within reach
passes the test. -/
lemma _fl10Go_reaches (x : ℚ) :
    ∀ fuel k j, k ≤ j → j < k + fuel → j ≤ 102 →
      (if j ≤ 2 then ((10 : ℚ) ^ (2 - j) ≤ x) else (1 ≤ x * 10 ^ (j - 2))) →
      _fl10Go x fuel k ≠ -101 := by
  intro fuel
  induction fuel with
  | zero => intro k j h1 h2 _ _; omega
  | succ fuel ih =>
    intro k j h1 h2 h3 hcond
    by_cases hc : (if k ≤ 2 then ((10 : ℚ) ^ (2 - k) ≤ x) else (1 ≤ x * 10 ^ (k - 2)))
    · simp only [_fl10Go, if_pos hc]
      omega
    · have hkj : k ≠ j := by rintro rfl; exact hc hcond
      simp only [_fl10Go, if_neg hc]
      exact ih (k + 1) j (by omega) (by omega) h3 hcond

/-- For an argument within the working range, `_floorLog10` stops at a true
test. -/
lemma _floorLog10_spec (x : ℚ) (hx : 1 ≤ x * 10 ^ 10) :
    ∃ j : ℕ, _floorLog10 x = 2 - (j : ℤ) ∧
      (if j ≤ 2 then ((10 : ℚ) ^ (2 - j) ≤ x) else (1 ≤ x * 10 ^ (j - 2))) := by
  have hne := _fl10Go_reaches x 103 0 12 (by omega) (by omega) (by omega)
    (by norm_num; exact hx)
  rcases _fl10Go_spec x 103 0 with h | ⟨j, -, hj2, hj3⟩
  · exact absurd h hne
  · exact ⟨j, hj2, hj3⟩

/-- The decimal precision `int(2 - log10 x)` the decoder picks is
non-negative and strictly finer than `x` itself, for every `x` in the
working range. -/
lemma _i2ml10_good (x : ℚ) (hx : 1 ≤ x * 10 ^ 10) :
    0 ≤ _i2ml10 x ∧ (1 : ℚ) / 10 ^ (_i2ml10 x).toNat < x := by
  obtain ⟨j, hz, hcond⟩ := _floorLog10_spec x hx
  unfold _i2ml10
  rw [hz]
  by_cases hj2 : j ≤ 2
  · rw [if_pos hj2] at hcond
    interval_cases j
    · rw [if_neg (by norm_num)]
      norm_num at hcond ⊢
      linarith
    · rw [if_pos (by norm_num)]
      norm_num at hcond ⊢
      linarith
    · rw [if_pos (by norm_num)]
      norm_num at hcond ⊢
      linarith
  · rw [if_neg hj2] at hcond
    rw [if_pos (by omega : (2 : ℤ) - (j : ℕ) ≤ 1)]
    have htn : (1 - (2 - (j : ℤ))).toNat = j - 1 := by omega
    rw [htn]
    refine ⟨by omega, ?_⟩
    have hp2 : (0 : ℚ) < 10 ^ (j - 2) := by positivity
    have hx2 : 1 / 10 ^ (j - 2) ≤ x := (div_le_iff hp2).mpr (by linarith)
    have hlt : (1 : ℚ) / 10 ^ (j - 1) < 1 / 10 ^ (j - 2) :=
      div_lt_div_of_pos_left (by norm_num) hp2
        (pow_lt_pow_right₀ (by norm_num) (by omega))
    linarith

lemma _bitsOf_length (g : List Char) : (_bitsOf g).length = 5 * g.length := by
  induction g with
  | nil => rfl
  | cons c t ih =>
    rw [show _bitsOf (c :: t) = _charBits (_GeohashBase32.indexOf c) ++ _bitsOf t
        from rfl,
      List.length_append, ih, List.length_cons]
    show 5 + 5 * t.length = 5 * (t.length + 1)
    omega

lemma _toChars_length : ∀ (p : ℕ) (bs : List Bool), (_toChars p bs).length = p := by
  intro p
  induction p with
  | zero => intro bs; rfl
  | succ p ih => intro bs; simp [_toChars, ih]

lemma encode_length (lat lon : ℚ) (p : ℕ) : (encode lat lon p).length = p :=
  _toChars_length p _

lemma _getD_alpha (i : ℕ) : _GeohashBase32.getD i '0' ∈ _GeohashBase32 := by
  by_cases hi : i < _GeohashBase32.length
  · rw [List.getD_eq_getElem _ _ hi]
    exact List.getElem_mem hi
  · rw [List.getD_eq_default _ _ (by omega)]
    decide

lemma _toChars_mem : ∀ (p : ℕ) (bs : List Bool) (c : Char),
    c ∈ _toChars p bs → c ∈ _GeohashBase32 := by
  intro p
  induction p with
  | zero => intro bs c h; simp [_toChars] at h
  | succ p ih =>
    intro bs c h
    simp only [_toChars] at h
    rcases List.mem_cons.mp h with h | h
    · exact h ▸ _getD_alpha _
    · exact ih _ c h

/-- `bounds` succeeds on every non-empty string over the alphabet. -/
lemma bounds_ok (g : List Char) (h1 : 1 ≤ g.length)
    (hmem : ∀ c ∈ g, c ∈ _GeohashBase32) :
    bounds g = Except.ok (_bisectGo (_bitsOf g) true (-90) (-180) 90 180) := by
  have hall : g.all (fun c => decide (c ∈ _GeohashBase32)) = true := by
    rw [List.all_eq_true]
    intro c hc
    exact decide_eq_true (hmem c hc)
  unfold bounds
  rw [if_neg (by omega), hall, if_pos rfl]

/-- For every valid geohash, the pair `decode2` returns lies inside the
bounding box `bounds` returns. -/
lemma decode2_in_bounds (g : List Char) (h1 : 1 ≤ g.length) (h2 : g.length ≤ 12)
    (hmem : ∀ c ∈ g, c ∈ _GeohashBase32) :
    ∃ b la lo, bounds g = Except.ok b ∧ decode2 g = Except.ok (la, lo) ∧
      b.latS ≤ la ∧ la ≤ b.latN ∧ b.lonW ≤ lo ∧ lo ≤ b.lonE := by
  have hb := bounds_ok g h1 hmem
  obtain ⟨hsizeLat, hsizeLon⟩ := _bisectGo_size (_bitsOf g) true (-90) (-180) 90 180
  have hblen := _bitsOf_length g
  set b := _bisectGo (_bitsOf g) true (-90) (-180) 90 180 with hbdef
  have hcLat : _latCnt true (_bitsOf g).length = 5 * g.length / 2 := by
    rw [hblen]; simp [_latCnt]
  have hcLon : _lonCnt true (_bitsOf g).length = (5 * g.length + 1) / 2 := by
    rw [hblen]; simp [_lonCnt]
  rw [hcLat] at hsizeLat
  rw [hcLon] at hsizeLon
  have hH : b.latN - b.latS = 180 / 2 ^ (5 * g.length / 2) := by
    rw [eq_div_iff (by positivity)]
    linarith [hsizeLat]
  have hW : b.lonE - b.lonW = 360 / 2 ^ ((5 * g.length + 1) / 2) := by
    rw [eq_div_iff (by positivity)]
    linarith [hsizeLon]
  have hHpos : 0 < b.latN - b.latS := by rw [hH]; positivity
  have hWpos : 0 < b.lonE - b.lonW := by rw [hW]; positivity
  have hHrange : 1 ≤ (b.latN - b.latS) * 10 ^ 10 := by
    rw [hH, div_mul_eq_mul_div, le_div_iff (by positivity), one_mul]
    calc (2 : ℚ) ^ (5 * g.length / 2) ≤ 2 ^ 30 :=
        pow_le_pow_right₀ (by norm_num) (by omega)
      _ ≤ 180 * 10 ^ 10 := by norm_num
  have hWrange : 1 ≤ (b.lonE - b.lonW) * 10 ^ 10 := by
    rw [hW, div_mul_eq_mul_div, le_div_iff (by positivity), one_mul]
    calc (2 : ℚ) ^ ((5 * g.length + 1) / 2) ≤ 2 ^ 31 :=
        pow_le_pow_right₀ (by norm_num) (by omega)
      _ ≤ 360 * 10 ^ 10 := by norm_num
  obtain ⟨hP1, hP2⟩ := _i2ml10_good (b.latN - b.latS) hHrange
  obtain ⟨hQ1, hQ2⟩ := _i2ml10_good (b.lonE - b.lonW) hWrange
  obtain ⟨hla1, hla2⟩ :=
    _round_center_mem b.latS b.latN (_i2ml10 (b.latN - b.latS)) hP1 (by linarith) hP2
  obtain ⟨hlo1, hlo2⟩ :=
    _round_center_mem b.lonW b.lonE (_i2ml10 (b.lonE - b.lonW)) hQ1 (by linarith) hQ2
  refine ⟨b, _, _, hb, ?_, hla1, hla2, hlo1, hlo2⟩
  unfold decode2
  rw [hb]

/-- C6: for every precision p in 1..12 and coordinate in the domain, the
latitude/longitude pair returned by `decode2(encode(lat, lon, p))` lies
inside the bounding box returned by `bounds(encode(lat, lon, p))`:
south ≤ decoded latitude ≤ north and west ≤ decoded longitude ≤ east. -/
theorem decode2_encode_in_bounds (p : ℕ) (lat lon : ℚ)
    (hp1 : 1 ≤ p) (hp2 : p ≤ 12) (hlat1 : -90 ≤ lat) (hlat2 : lat ≤ 90)
    (hlon1 : -180 ≤ lon) (hlon2 : lon ≤ 180) :
    ∃ b la lo, bounds (encode lat lon p) = Except.ok b ∧
      decode2 (encode lat lon p) = Except.ok (la, lo) ∧
      b.latS ≤ la ∧ la ≤ b.latN ∧ b.lonW ≤ lo ∧ lo ≤ b.lonE := by
  refine decode2_in_bounds _ ?_ ?_ ?_
  · rw [encode_length]; omega
  · rw [encode_length]; omega
  · intro c hc
    exact _toChars_mem p _ c hc

/-- Witness for C6's theorem at `p = 1`, latitude 10, longitude 20. -/
theorem decode2_encode_in_bounds_witness :
    ∃ b la lo, bounds (encode 10 20 1) = Except.ok b ∧
      decode2 (encode 10 20 1) = Except.ok (la, lo) ∧
      b.latS ≤ la ∧ la ≤ b.latN ∧ b.lonW ≤ lo ∧ lo ≤ b.lonE :=
  decode2_encode_in_bounds 1 10 20 (by norm_num) (by norm_num) (by norm_num)
    (by norm_num) (by norm_num) (by norm_num)

/-- The acceptance test of the precision-inference loop in `encode`
(`precision=None`): re-decode the candidate (`ll = map2(float, decode(gh))`)
and require both axes to differ from the inputs by less than `EPS`.  The
error branch is unreachable: the output of `encode` is always a valid
geohash. -/
def _roundtripOK (lat lon : ℚ) (p : ℕ) : Bool :=
  match decode2 (encode lat lon p) with
  | Except.ok (la, lo) => decide (|lat - la| < EPS ∧ |lon - lo| < EPS)
  | Except.error _ => false

/-- The `for p in range(1, _MaxPrec + 1)` loop of `encode` with omitted
precision: try the precisions in order, returning the first accepted
candidate; when the loop completes without returning, fall through to the
full `_MaxPrec`-character encoding. -/
def _autoGo (lat lon : ℚ) : ℕ → ℕ → List Char
  | 0, _ => encode lat lon _MaxPrec
  | k + 1, p =>
    if _roundtripOK lat lon p then encode lat lon p else _autoGo lat lon k (p + 1)

/-- Translation of `encode(lat, lon)` with `precision=None`. -/
def encodeAuto (lat lon : ℚ) : List Char := _autoGo lat lon _MaxPrec 1

lemma _autoGo_hit (lat lon : ℚ) (q : ℕ) (hq : _roundtripOK lat lon q = true) :
    ∀ k p, p ≤ q → q < p + k →
      (∀ r, p ≤ r → r < q → _roundtripOK lat lon r = false) →
      _autoGo lat lon k p = encode lat lon q := by
  intro k
  induction k with
  | zero => intro p h1 h2 _; omega
  | succ k ih =>
    intro p h1 h2 hlt
    by_cases hpq : p = q
    · subst hpq
      simp [_autoGo, hq]
    · have hf : _roundtripOK lat lon p = false := hlt p le_rfl (by omega)
      rw [show _autoGo lat lon (k + 1) p =
          if _roundtripOK lat lon p then encode lat lon p
          else _autoGo lat lon k (p + 1) from rfl,
        hf, if_neg Bool.false_ne_true]
      exact ih (p + 1) (by omega) (by omega) fun r hr hr2 => hlt r (by omega) hr2

lemma _autoGo_miss (lat lon : ℚ) :
    ∀ k p, (∀ r, p ≤ r → r < p + k → _roundtripOK lat lon r = false) →
      _autoGo lat lon k p = encode lat lon _MaxPrec := by
  intro k
  induction k with
  | zero => intro p _; rfl
  | succ k ih =>
    intro p hlt
    have hf := hlt p le_rfl (by omega)
    rw [show _autoGo lat lon (k + 1) p =
        if _roundtripOK lat lon p then encode lat lon p
        else _autoGo lat lon k (p + 1) from rfl,
      hf, if_neg Bool.false_ne_true]
    exact ih (p + 1) fun r hr hr2 => hlt r (by omega) (by omega)

/-- C4: with precision omitted, `encode` returns `encode(lat, lon, q)` for
the smallest precision q in 1..12 whose candidate decodes back within `EPS`
of the inputs on both axes, and the full 12-character `encode(lat, lon, 12)`
when no precision in 1..12 qualifies. -/
theorem encodeAuto_least_precision (lat lon : ℚ)
    (hlat1 : -90 ≤ lat) (hlat2 : lat ≤ 90) (hlon1 : -180 ≤ lon) (hlon2 : lon ≤ 180) :
    (∀ q, 1 ≤ q → q ≤ 12 → _roundtripOK lat lon q = true →
      (∀ r, 1 ≤ r → r < q → _roundtripOK lat lon r = false) →
      encodeAuto lat lon = encode lat lon q) ∧
    ((∀ q, 1 ≤ q → q ≤ 12 → _roundtripOK lat lon q = false) →
      encodeAuto lat lon = encode lat lon 12) := by
  constructor
  · intro q h1 h2 hq hlt
    exact _autoGo_hit lat lon q hq 12 1 h1 (by omega) fun r hr hr2 => hlt r hr hr2
  · intro hall
    exact _autoGo_miss lat lon 12 1 fun r hr hr2 => hall r hr (by omega)

/-- The cell of `(22, -22)` at precision 1 is `"e"`, whose decoded center is
exactly `(22, -22)`, so the round-trip test accepts precision 1 there. -/
lemma _roundtripOK_example : _roundtripOK 22 (-22) 1 = true := by
  have hb : _encodeGo 22 (-22) 5 true (-90) (-180) 90 180 =
      [false, true, true, false, true] := by
    norm_num [_encodeGo]
  have he : encode 22 (-22) 1 = ['e'] := by
    unfold encode
    rw [show 5 * 1 = 5 from rfl, hb]
    decide
  have hbits : _bitsOf ['e'] = [false, true, true, false, true] := by decide
  have hbox : _bisectGo [false, true, true, false, true] true (-90) (-180) 90 180 =
      ⟨0, -45, 45, 0⟩ := by
    norm_num [_bisectGo]
  have hbnds : bounds ['e'] = Except.ok ⟨0, -45, 45, 0⟩ := by
    rw [bounds_ok ['e'] (by norm_num) (by decide), hbits, hbox]
  have hfl : _floorLog10 45 = 1 := by norm_num [_floorLog10, _fl10Go]
  have hprec : _i2ml10 45 = 0 := by
    unfold _i2ml10
    rw [hfl]
    norm_num
  have hd2 : decode2 ['e'] = Except.ok (22, -22) := by
    unfold decode2
    rw [hbnds]
    norm_num [hprec, _fstrQ, _rhe]
  unfold _roundtripOK
  rw [he, hd2]
  norm_num [EPS]

/-- Witness for C4's theorem at `(22, -22)`: the loop accepts precision 1. -/
theorem encodeAuto_least_precision_witness :
    encodeAuto 22 (-22) = encode 22 (-22) 1 :=
  (encodeAuto_least_precision 22 (-22) (by norm_num) (by norm_num) (by norm_num)
      (by norm_num)).1 1 le_rfl (by norm_num) _roundtripOK_example
    (fun r hr hrlt => absurd (lt_of_le_of_lt hr hrlt) (lt_irrefl 1))

/-- All bits on the axis selected by `onLon` (`true` for longitude) equal
`v`, for an alternating bit stream starting with flag `d`. -/
def _axisAll (onLon v : Bool) : Bool → List Bool → Bool
  | _, [] => true
  | d, b :: bs => (!(d == onLon) || (b == v)) && _axisAll onLon v (!d) bs

/-- The bisection never moves the latitude edges outward. -/
lemma _bisect_lat_mono :
    ∀ (bs : List Bool) (d : Bool) (s w n e : ℚ), s ≤ n →
      s ≤ (_bisectGo bs d s w n e).latS ∧ (_bisectGo bs d s w n e).latN ≤ n ∧
        (_bisectGo bs d s w n e).latS ≤ (_bisectGo bs d s w n e).latN := by
  intro bs
  induction bs with
  | nil => intro d s w n e h; exact ⟨le_rfl, le_rfl, h⟩
  | cons b bs ih =>
    intro d s w n e h
    cases d
    · cases b
      · show s ≤ (_bisectGo bs true s w ((s + n) / 2) e).latS ∧
            (_bisectGo bs true s w ((s + n) / 2) e).latN ≤ n ∧
            (_bisectGo bs true s w ((s + n) / 2) e).latS ≤
              (_bisectGo bs true s w ((s + n) / 2) e).latN
        have hm := ih true s w ((s + n) / 2) e (by linarith)
        exact ⟨hm.1, by linarith [hm.2.1], hm.2.2⟩
      · show s ≤ (_bisectGo bs true ((s + n) / 2) w n e).latS ∧
            (_bisectGo bs true ((s + n) / 2) w n e).latN ≤ n ∧
            (_bisectGo bs true ((s + n) / 2) w n e).latS ≤
              (_bisectGo bs true ((s + n) / 2) w n e).latN
        have hm := ih true ((s + n) / 2) w n e (by linarith)
        exact ⟨by linarith [hm.1], hm.2.1, hm.2.2⟩
    · cases b
      · show s ≤ (_bisectGo bs false s w n ((w + e) / 2)).latS ∧
            (_bisectGo bs false s w n ((w + e) / 2)).latN ≤ n ∧
            (_bisectGo bs false s w n ((w + e) / 2)).latS ≤
              (_bisectGo bs false s w n ((w + e) / 2)).latN
        exact ih false s w n ((w + e) / 2) h
      · show s ≤ (_bisectGo bs false s ((w + e) / 2) n e).latS ∧
            (_bisectGo bs false s ((w + e) / 2) n e).latN ≤ n ∧
            (_bisectGo bs false s ((w + e) / 2) n e).latS ≤
              (_bisectGo bs false s ((w + e) / 2) n e).latN
        exact ih false s ((w + e) / 2) n e h

/-- The bisection never moves the longitude edges outward. -/
lemma _bisect_lon_mono :
    ∀ (bs : List Bool) (d : Bool) (s w n e : ℚ), w ≤ e →
      w ≤ (_bisectGo bs d s w n e).lonW ∧ (_bisectGo bs d s w n e).lonE ≤ e ∧
        (_bisectGo bs d s w n e).lonW ≤ (_bisectGo bs d s w n e).lonE := by
  intro bs
  induction bs with
  | nil => intro d s w n e h; exact ⟨le_rfl, le_rfl, h⟩
  | cons b bs ih =>
    intro d s w n e h
    cases d
    · cases b
      · show w ≤ (_bisectGo bs true s w ((s + n) / 2) e).lonW ∧
            (_bisectGo bs true s w ((s + n) / 2) e).lonE ≤ e ∧
            (_bisectGo bs true s w ((s + n) / 2) e).lonW ≤
              (_bisectGo bs true s w ((s + n) / 2) e).lonE
        exact ih true s w ((s + n) / 2) e h
      · show w ≤ (_bisectGo bs true ((s + n) / 2) w n e).lonW ∧
            (_bisectGo bs true ((s + n) / 2) w n e).lonE ≤ e ∧
            (_bisectGo bs true ((s + n) / 2) w n e).lonW ≤
              (_bisectGo bs true ((s + n) / 2) w n e).lonE
        exact ih true ((s + n) / 2) w n e h
    · cases b
      · show w ≤ (_bisectGo bs false s w n ((w + e) / 2)).lonW ∧
            (_bisectGo bs false s w n ((w + e) / 2)).lonE ≤ e ∧
            (_bisectGo bs false s w n ((w + e) / 2)).lonW ≤
              (_bisectGo bs false s w n ((w + e) / 2)).lonE
        have hm := ih false s w n ((w + e) / 2) (by linarith)
        exact ⟨hm.1, by linarith [hm.2.1], hm.2.2⟩
      · show w ≤ (_bisectGo bs false s ((w + e) / 2) n e).lonW ∧
            (_bisectGo bs false s ((w + e) / 2) n e).lonE ≤ e ∧
            (_bisectGo bs false s ((w + e) / 2) n e).lonW ≤
              (_bisectGo bs false s ((w + e) / 2) n e).lonE
        have hm := ih false s ((w + e) / 2) n e (by linarith)
        exact ⟨by linarith [hm.1], hm.2.1, hm.2.2⟩

/-- The north edge survives the bisection iff every latitude bit picks the
upper half. -/
lemma _bisect_latN_eq :
    ∀ (bs : List Bool) (d : Bool) (s w n e : ℚ), s < n →
      ((_bisectGo bs d s w n e).latN = n ↔ _axisAll false true d bs = true) := by
  intro bs
  induction bs with
  | nil => intro d s w n e _; simp [_bisectGo, _axisAll]
  | cons b bs ih =>
    intro d s w n e h
    cases d
    · cases b
      · show (_bisectGo bs true s w ((s + n) / 2) e).latN = n ↔
          _axisAll false true false (false :: bs) = true
        constructor
        · intro hEq
          have hm := (_bisect_lat_mono bs true s w ((s + n) / 2) e (by linarith)).2.1
          rw [hEq] at hm
          linarith
        · intro hAx
          simp [_axisAll] at hAx
      · show (_bisectGo bs true ((s + n) / 2) w n e).latN = n ↔
          _axisAll false true false (true :: bs) = true
        rw [ih true ((s + n) / 2) w n e (by linarith)]
        simp [_axisAll]
    · cases b
      · show (_bisectGo bs false s w n ((w + e) / 2)).latN = n ↔
          _axisAll false true true (false :: bs) = true
        rw [ih false s w n ((w + e) / 2) h]
        simp [_axisAll]
      · show (_bisectGo bs false s ((w + e) / 2) n e).latN = n ↔
          _axisAll false true true (true :: bs) = true
        rw [ih false s ((w + e) / 2) n e h]
        simp [_axisAll]

/-- The south edge survives the bisection iff every latitude bit picks the
lower half. -/
lemma _bisect_latS_eq :
    ∀ (bs : List Bool) (d : Bool) (s w n e : ℚ), s < n →
      ((_bisectGo bs d s w n e).latS = s ↔ _axisAll false false d bs = true) := by
  intro bs
  induction bs with
  | nil => intro d s w n e _; simp [_bisectGo, _axisAll]
  | cons b bs ih =>
    intro d s w n e h
    cases d
    · cases b
      · show (_bisectGo bs true s w ((s + n) / 2) e).latS = s ↔
          _axisAll false false false (false :: bs) = true
        rw [ih true s w ((s + n) / 2) e (by linarith)]
        simp [_axisAll]
      · show (_bisectGo bs true ((s + n) / 2) w n e).latS = s ↔
          _axisAll false false false (true :: bs) = true
        constructor
        · intro hEq
          have hm := (_bisect_lat_mono bs true ((s + n) / 2) w n e (by linarith)).1
          rw [hEq] at hm
          linarith
        · intro hAx
          simp [_axisAll] at hAx
    · cases b
      · show (_bisectGo bs false s w n ((w + e) / 2)).latS = s ↔
          _axisAll false false true (false :: bs) = true
        rw [ih false s w n ((w + e) / 2) h]
        simp [_axisAll]
      · show (_bisectGo bs false s ((w + e) / 2) n e).latS = s ↔
          _axisAll false false true (true :: bs) = true
        rw [ih false s ((w + e) / 2) n e h]
        simp [_axisAll]

/-- The east edge survives the bisection iff every longitude bit picks the
upper half. -/
lemma _bisect_lonE_eq :
    ∀ (bs : List Bool) (d : Bool) (s w n e : ℚ), w < e →
      ((_bisectGo bs d s w n e).lonE = e ↔ _axisAll true true d bs = true) := by
  intro bs
  induction bs with
  | nil => intro d s w n e _; simp [_bisectGo, _axisAll]
  | cons b bs ih =>
    intro d s w n e h
    cases d
    · cases b
      · show (_bisectGo bs true s w ((s + n) / 2) e).lonE = e ↔
          _axisAll true true false (false :: bs) = true
        rw [ih true s w ((s + n) / 2) e h]
        simp [_axisAll]
      · show (_bisectGo bs true ((s + n) / 2) w n e).lonE = e ↔
          _axisAll true true false (true :: bs) = true
        rw [ih true ((s + n) / 2) w n e h]
        simp [_axisAll]
    · cases b
      · show (_bisectGo bs false s w n ((w + e) / 2)).lonE = e ↔
          _axisAll true true true (false :: bs) = true
        constructor
        · intro hEq
          have hm := (_bisect_lon_mono bs false s w n ((w + e) / 2) (by linarith)).2.1
          rw [hEq] at hm
          linarith
        · intro hAx
          simp [_axisAll] at hAx
      · show (_bisectGo bs false s ((w + e) / 2) n e).lonE = e ↔
          _axisAll true true true (true :: bs) = true
        rw [ih false s ((w + e) / 2) n e (by linarith)]
        simp [_axisAll]

/-- The west edge survives the bisection iff every longitude bit picks the
lower half. -/
lemma _bisect_lonW_eq :
    ∀ (bs : List Bool) (d : Bool) (s w n e : ℚ), w < e →
      ((_bisectGo bs d s w n e).lonW = w ↔ _axisAll true false d bs = true) := by
  intro bs
  induction bs with
  | nil => intro d s w n e _; simp [_bisectGo, _axisAll]
  | cons b bs ih =>
    intro d s w n e h
    cases d
    · cases b
      · show (_bisectGo bs true s w ((s + n) / 2) e).lonW = w ↔
          _axisAll true false false (false :: bs) = true
        rw [ih true s w ((s + n) / 2) e h]
        simp [_axisAll]
      · show (_bisectGo bs true ((s + n) / 2) w n e).lonW = w ↔
          _axisAll true false false (true :: bs) = true
        rw [ih true ((s + n) / 2) w n e h]
        simp [_axisAll]
    · cases b
      · show (_bisectGo bs false s w n ((w + e) / 2)).lonW = w ↔
          _axisAll true false true (false :: bs) = true
        rw [ih false s w n ((w + e) / 2) (by linarith)]
        simp [_axisAll]
      · show (_bisectGo bs false s ((w + e) / 2) n e).lonW = w ↔
          _axisAll true false true (true :: bs) = true
        constructor
        · intro hEq
          have hm := (_bisect_lon_mono bs false s ((w + e) / 2) n e (by linarith)).1
          rw [hEq] at hm
          linarith
        · intro hAx
          simp [_axisAll] at hAx

/-- The alternating flag after consuming `m` bits. -/
def _flagAfter (d : Bool) (m : ℕ) : Bool := if m % 2 = 0 then d else !d

lemma _axisAll_append (onLon v : Bool) :
    ∀ (l1 l2 : List Bool) (d : Bool),
      _axisAll onLon v d (l1 ++ l2) =
        (_axisAll onLon v d l1 && _axisAll onLon v (_flagAfter d l1.length) l2) := by
  intro l1
  induction l1 with
  | nil => intro l2 d; simp [_axisAll, _flagAfter]
  | cons b l1 ih =>
    intro l2 d
    have hfl : _flagAfter d (l1.length + 1) = _flagAfter (!d) l1.length := by
      unfold _flagAfter
      rcases Nat.mod_two_eq_zero_or_one l1.length with h | h <;>
        simp [Nat.add_mod, h]
    show ((!(d == onLon) || (b == v)) && _axisAll onLon v (!d) (l1 ++ l2)) =
      (((!(d == onLon) || (b == v)) && _axisAll onLon v (!d) l1) &&
        _axisAll onLon v (_flagAfter d (l1.length + 1)) l2)
    rw [ih l2 (!d), hfl, Bool.and_assoc]

lemma _bitsOf_append (g : List Char) (c : Char) :
    _bitsOf (g ++ [c]) = _bitsOf g ++ _charBits (_GeohashBase32.indexOf c) := by
  simp [_bitsOf]

/-- For each alphabet character, having all bits of one axis equal to one
value is exactly membership in the corresponding border set (direction ×
parity; parity 1 means the character starts on the longitude axis). -/
lemma _charFacts :
    ∀ c ∈ _GeohashBase32,
      (_axisAll false true true (_charBits (_GeohashBase32.indexOf c)) =
        decide (c ∈ _Border 'N' 1)) ∧
      (_axisAll false true false (_charBits (_GeohashBase32.indexOf c)) =
        decide (c ∈ _Border 'N' 0)) ∧
      (_axisAll false false true (_charBits (_GeohashBase32.indexOf c)) =
        decide (c ∈ _Border 'S' 1)) ∧
      (_axisAll false false false (_charBits (_GeohashBase32.indexOf c)) =
        decide (c ∈ _Border 'S' 0)) ∧
      (_axisAll true true true (_charBits (_GeohashBase32.indexOf c)) =
        decide (c ∈ _Border 'E' 1)) ∧
      (_axisAll true true false (_charBits (_GeohashBase32.indexOf c)) =
        decide (c ∈ _Border 'E' 0)) ∧
      (_axisAll true false true (_charBits (_GeohashBase32.indexOf c)) =
        decide (c ∈ _Border 'W' 1)) ∧
      (_axisAll true false false (_charBits (_GeohashBase32.indexOf c)) =
        decide (c ∈ _Border 'W' 0)) := by decide

/-- Lifting the per-character border facts through the whole bit stream: the
selected axis keeps choosing one side through all bits iff every character
lies in the border set for its parity, i.e. iff the border carry of
`adjacent` propagates through the whole (reversed) string. -/
lemma _axisAll_allBorder (dch : Char) (onLon v : Bool)
    (hchar : ∀ c ∈ _GeohashBase32,
      (_axisAll onLon v true (_charBits (_GeohashBase32.indexOf c)) =
        decide (c ∈ _Border dch 1)) ∧
      (_axisAll onLon v false (_charBits (_GeohashBase32.indexOf c)) =
        decide (c ∈ _Border dch 0))) :
    ∀ g : List Char, (∀ c ∈ g, c ∈ _GeohashBase32) →
      _axisAll onLon v true (_bitsOf g) = _allBorder dch g.reverse := by
  intro g
  induction g using List.reverseRecOn with
  | nil => intro _; rfl
  | append_singleton g c ih =>
    intro hmem
    have hc : c ∈ _GeohashBase32 := hmem c (by simp)
    have hg : ∀ x ∈ g, x ∈ _GeohashBase32 := fun x hx => hmem x (by simp [hx])
    rw [_bitsOf_append, _axisAll_append, ih hg]
    rw [show (g ++ [c]).reverse = c :: g.reverse by simp]
    rw [show _allBorder dch (c :: g.reverse) =
      (decide (c ∈ _Border dch ((g.reverse.length + 1) % 2)) &&
        _allBorder dch g.reverse) from rfl]
    have hlen5 : (_bitsOf g).length = 5 * g.length := _bitsOf_length g
    have hrevlen : g.reverse.length = g.length := List.length_reverse g
    rcases Nat.mod_two_eq_zero_or_one g.length with hpar | hpar
    · have hf : _flagAfter true (_bitsOf g).length = true := by
        unfold _flagAfter
        rw [hlen5]
        have : 5 * g.length % 2 = 0 := by omega
        simp [this]
      have hpar2 : (g.reverse.length + 1) % 2 = 1 := by rw [hrevlen]; omega
      rw [hf, hpar2, (hchar c hc).1, Bool.and_comm]
    · have hf : _flagAfter true (_bitsOf g).length = false := by
        unfold _flagAfter
        rw [hlen5]
        have : 5 * g.length % 2 = 1 := by omega
        simp [this]
      have hpar2 : (g.reverse.length + 1) % 2 = 0 := by rw [hrevlen]; omega
      rw [hf, hpar2, (hchar c hc).2, Bool.and_comm]

/-- The four sides of a geohash's bounding box touch the domain boundary
exactly when the corresponding border carry propagates through the whole
string. -/
lemma _edge_allBorder (g : List Char) (hmem : ∀ c ∈ g, c ∈ _GeohashBase32) :
    ((_bisectGo (_bitsOf g) true (-90) (-180) 90 180).latN = 90 ↔
      _allBorder 'N' g.reverse = true) ∧
    ((_bisectGo (_bitsOf g) true (-90) (-180) 90 180).latS = -90 ↔
      _allBorder 'S' g.reverse = true) ∧
    ((_bisectGo (_bitsOf g) true (-90) (-180) 90 180).lonE = 180 ↔
      _allBorder 'E' g.reverse = true) ∧
    ((_bisectGo (_bitsOf g) true (-90) (-180) 90 180).lonW = -180 ↔
      _allBorder 'W' g.reverse = true) := by
  refine ⟨?_, ?_, ?_, ?_⟩
  · rw [_bisect_latN_eq (_bitsOf g) true (-90) (-180) 90 180 (by norm_num),
      _axisAll_allBorder 'N' false true
        (fun c hc => ⟨(_charFacts c hc).1, (_charFacts c hc).2.1⟩) g hmem]
  · rw [_bisect_latS_eq (_bitsOf g) true (-90) (-180) 90 180 (by norm_num),
      _axisAll_allBorder 'S' false false
        (fun c hc => ⟨(_charFacts c hc).2.2.1, (_charFacts c hc).2.2.2.1⟩) g hmem]
  · rw [_bisect_lonE_eq (_bitsOf g) true (-90) (-180) 90 180 (by norm_num),
      _axisAll_allBorder 'E' true true
        (fun c hc => ⟨(_charFacts c hc).2.2.2.2.1,
          (_charFacts c hc).2.2.2.2.2.1⟩) g hmem]
  · rw [_bisect_lonW_eq (_bitsOf g) true (-90) (-180) 90 180 (by norm_num),
      _axisAll_allBorder 'W' true false
        (fun c hc => ⟨(_charFacts c hc).2.2.2.2.2.2.1,
          (_charFacts c hc).2.2.2.2.2.2.2⟩) g hmem]

/-- C7: for every valid geohash whose cell touches neither ±90° latitude nor
±180° longitude, and every pair of opposite cardinal directions d, d′,
`adjacent(adjacent(g, d), d′) = g`.  The excluded cells are exactly the
documented edge cases where the carry has to wrap around the domain
boundary. -/
theorem adjacent_inverse_away_from_edges (g : List Char) (d d' : Char)
    (hg : validGeohash g)
    (hdd : (d = 'N' ∧ d' = 'S') ∨ (d = 'S' ∧ d' = 'N') ∨
           (d = 'E' ∧ d' = 'W') ∨ (d = 'W' ∧ d' = 'E'))
    (b : Bounds4) (hb : bounds g = Except.ok b)
    (hN : b.latN ≠ 90) (hS : b.latS ≠ -90) (hE : b.lonE ≠ 180)
    (hW : b.lonW ≠ -180) :
    (adjacentGo d g).bind (adjacentGo d') = Except.ok g := by
  have hne : g.reverse ≠ [] := fun h => hg.1 (List.reverse_eq_nil_iff.mp h)
  have hmem : ∀ c ∈ g.reverse, c ∈ _GeohashBase32 :=
    fun c hc => hg.2.2 c (List.mem_reverse.mp hc)
  have h1 : 1 ≤ g.length := List.length_pos.mpr hg.1
  have hbval : _bisectGo (_bitsOf g) true (-90) (-180) 90 180 = b := by
    have hok := bounds_ok g h1 hg.2.2
    rw [hok] at hb
    exact Except.ok.inj hb
  obtain ⟨hEN, hES, hEE, hEW⟩ := _edge_allBorder g hg.2.2
  rw [hbval] at hEN hES hEE hEW
  have hald : _allBorder d g.reverse = false := by
    rcases hdd with ⟨rfl, -⟩ | ⟨rfl, -⟩ | ⟨rfl, -⟩ | ⟨rfl, -⟩
    · cases hab : _allBorder 'N' g.reverse
      · rfl
      · exact absurd (hEN.mpr hab) hN
    · cases hab : _allBorder 'S' g.reverse
      · rfl
      · exact absurd (hES.mpr hab) hS
    · cases hab : _allBorder 'E' g.reverse
      · rfl
      · exact absurd (hEE.mpr hab) hE
    · cases hab : _allBorder 'W' g.reverse
      · rfl
      · exact absurd (hEW.mpr hab) hW
  have hd : d ∈ _dirs := by
    rcases hdd with ⟨rfl, -⟩ | ⟨rfl, -⟩ | ⟨rfl, -⟩ | ⟨rfl, -⟩ <;> decide
  have hopp : d' = _oppc d := by
    rcases hdd with ⟨rfl, rfl⟩ | ⟨rfl, rfl⟩ | ⟨rfl, rfl⟩ | ⟨rfl, rfl⟩ <;> rfl
  obtain ⟨rh, hrh, hlen, hback⟩ := adjacentRev_inv d hd g.reverse hne hmem hald
  rw [hopp]
  show (Except.map List.reverse (adjacentRev d g.reverse)).bind
    (fun h => Except.map List.reverse (adjacentRev (_oppc d) h.reverse)) =
    Except.ok g
  rw [hrh]
  show Except.map List.reverse (adjacentRev (_oppc d) rh.reverse.reverse) =
    Except.ok g
  rw [List.reverse_reverse, hback]
  show Except.ok g.reverse.reverse = Except.ok g
  rw [List.reverse_reverse]

/-- The bounds of the cell `"s"`: an interior cell touching no domain
boundary. -/
lemma _bounds_s : bounds ['s'] = Except.ok ⟨0, 0, 45, 45⟩ := by
  rw [bounds_ok ['s'] (by norm_num) (by decide),
    show _bitsOf ['s'] = [true, true, false, false, false] from by decide]
  norm_num [_bisectGo]

/-- Witness for C7's theorem: north then south from `"s"` returns `"s"`. -/
theorem adjacent_inverse_away_from_edges_witness :
    (adjacentGo 'N' ['s']).bind (adjacentGo 'S') = Except.ok ['s'] :=
  adjacent_inverse_away_from_edges ['s'] 'N' 'S' (by decide)
    (Or.inl ⟨rfl, rfl⟩) ⟨0, 0, 45, 45⟩ _bounds_s
    (by norm_num) (by norm_num) (by norm_num) (by norm_num)
